import Mathlib

/-!
# Verification of the scala-tune `.scl` parser (`src/lib.rs`)

A shallow embedding of the nom-based Scala tuning-file parser.  Input is
modelled as `List Char` (the Rust code parses `&str`).  nom's three-way
result (`Ok`, `Err::Error`, `Err::Incomplete`) is modelled by `PRes`;
`Err::Failure` (produced only by the `cut` inside nom's float-exponent
grammar) is collapsed into `err`, which is observationally equivalent here
because the only parser that could be tried after such a failure
(`note_ratio`) fails on every input on which `float` fails this way.

Numbers: nom's `character::streaming::u64` is modelled over `Nat` with the
explicit overflow bound `2 ^ 64`.  nom's `number::streaming::float` is
modelled by its `recognize_float` grammar, with the parsed value kept as
the recognized literal (the Rust code converts the same literal to `f32`;
the conversion never fails on strings accepted by `recognize_float`).
The special literals `nan`/`inf`/`infinity` also accepted by nom's float
are omitted: they never occur in the numeric positions of the claims.
-/

/-- Result of a streaming parser: success with remaining input,
definite failure (nom `Err::Error`), or "need more input"
(nom `Err::Incomplete`). -/
inductive PRes (α : Type) : Type where
  | ok (rest : List Char) (val : α)
  | err
  | inc
deriving DecidableEq, Repr

/-- A parser over `&str`, modelled as a function on `List Char`. -/
def Parser (α : Type) : Type := List Char → PRes α

/-- Succeed without consuming input. -/
def pureP {α : Type} (v : α) : Parser α := fun i => .ok i v

/-- Sequencing with `?`-propagation, as in nom `tuple` / Rust `?`. -/
def bindP {α β : Type} (p : Parser α) (f : α → Parser β) : Parser β := fun i =>
  match p i with
  | .ok r v => f v r
  | .err => .err
  | .inc => .inc

/-- nom `branch::alt` for two alternatives: the second is tried only on
`Err::Error`; `Incomplete` propagates. -/
def altP {α : Type} (p q : Parser α) : Parser α := fun i =>
  match p i with
  | .ok r v => .ok r v
  | .err => q i
  | .inc => .inc

/-- nom `combinator::opt`: turns `Err::Error` into `None`;
`Incomplete` propagates. -/
def optP {α : Type} (p : Parser α) : Parser (Option α) := fun i =>
  match p i with
  | .ok r v => .ok r (some v)
  | .err => .ok i none
  | .inc => .inc

/-- nom `character::streaming::char`: one expected character. -/
def charP (c : Char) : Parser Char := fun i =>
  match i with
  | [] => .inc
  | a :: r => if a = c then .ok r a else .err

/-- nom `bytes::streaming::tag`: a literal, `Incomplete` when the input is
a proper prefix of the tag. -/
def tagP : List Char → Parser Unit
  | [], i => .ok i ()
  | _ :: _, [] => .inc
  | c :: t, a :: i => if a = c then tagP t i else .err

/-- The two characters accepted by nom's `space0`. -/
def isSpaceTab (c : Char) : Bool := c = ' ' || c = '\t'

/-- nom `character::streaming::space0`: zero or more spaces/tabs;
streaming, so it is `Incomplete` when the whole input is spaces/tabs. -/
def space0 : Parser (List Char) := fun i =>
  if i.dropWhile isSpaceTab = [] then .inc
  else .ok (i.dropWhile isSpaceTab) (i.takeWhile isSpaceTab)

/-- nom `character::streaming::digit1`: one or more ASCII digits;
`Incomplete` when the digit run reaches the end of input. -/
def digit1 : Parser (List Char) := fun i =>
  match i with
  | [] => .inc
  | c :: _ =>
    if c.isDigit then
      if i.dropWhile Char.isDigit = [] then .inc
      else .ok (i.dropWhile Char.isDigit) (i.takeWhile Char.isDigit)
    else .err

/-- Decimal value of a digit string. -/
def natOfDigits (l : List Char) : Nat :=
  l.foldl (fun a c => 10 * a + (c.toNat - '0'.toNat)) 0

/-- nom `character::streaming::u64`: a decimal `u64` literal.  Empty input
or an all-digit input is `Incomplete`; a non-digit first character or an
overflow past `u64::MAX` is an error. -/
def u64P : Parser Nat := fun i =>
  match i with
  | [] => .inc
  | c :: _ =>
    if c.isDigit then
      if i.dropWhile Char.isDigit = [] then .inc
      else
        if natOfDigits (i.takeWhile Char.isDigit) < 2 ^ 64 then
          .ok (i.dropWhile Char.isDigit) (natOfDigits (i.takeWhile Char.isDigit))
        else .err
    else .err

/-- `num_u64` (lib.rs:94): runs `nom::character::streaming::u64` but
returns the ORIGINAL input `i` as the remainder — the advanced input of
the inner parser is discarded (`let (_, number) = ...u64(i)?; Ok((i, number))`). -/
def num_u64 : Parser Nat := fun i =>
  match u64P i with
  | .ok _ n => .ok i n
  | .err => .err
  | .inc => .inc

/-- nom `bytes::streaming::take_until("\n")`: everything strictly before
the first newline, which is left in the remainder; `Incomplete` when no
newline is found. -/
def takeUntilNl : Parser (List Char)
  | [] => .inc
  | c :: r =>
    if c = '\n' then .ok (c :: r) []
    else
      match takeUntilNl r with
      | .ok rest l => .ok rest (c :: l)
      | .err => .err
      | .inc => .inc

/-- nom `character::streaming::newline`. -/
def newlineP : Parser Char := charP '\n'

/-- Rust `str::trim` on the character lists arising here (ASCII whitespace). -/
def trim (l : List Char) : List Char :=
  ((l.dropWhile Char.isWhitespace).reverse.dropWhile Char.isWhitespace).reverse

/-- `take_line` (lib.rs:114): `take_until("\n")`, optional newline, and the
line trimmed. -/
def take_line : Parser (List Char) :=
  bindP takeUntilNl (fun l => bindP (optP newlineP) (fun _ => pureP (trim l)))

/-- `comment` (lib.rs:106): `tag("!")` then the rest of the line. -/
def comment : Parser (List Char) :=
  bindP (tagP ['!']) (fun _ => take_line)

/-- nom `multi::many0` with the fuel made explicit; nom's zero-progress
check (which yields an error to avoid an infinite loop) guarantees the
fuel `input length + 1` used in `many_comments` is never exhausted. -/
def many0F {α : Type} (p : Parser α) : Nat → Parser (List α)
  | 0, _ => .inc
  | fuel + 1, i =>
    match p i with
    | .err => .ok i []
    | .inc => .inc
    | .ok r v =>
      if r.length < i.length then
        match many0F p fuel r with
        | .ok r2 vs => .ok r2 (v :: vs)
        | .err => .err
        | .inc => .inc
      else .err

/-- `many_comments` (lib.rs:102): `many0(comment)`. -/
def many_comments : Parser (List (List Char)) := fun i =>
  many0F comment (i.length + 1) i

/-- `Option Char` sign as the list of consumed characters. -/
def optList : Option Char → List Char
  | none => []
  | some c => [c]

/-- The fractional part of nom `recognize_float`:
`pair(char('.'), opt(digit1))`. -/
def fracP : Parser (List Char) :=
  bindP (charP '.') (fun _ =>
    bindP (optP digit1) (fun ds => pureP ('.' :: ds.getD [])))

/-- The mantissa alternative of nom `recognize_float`:
`digit1 (. digit1?)?  |  . digit1`. -/
def mantissaP : Parser (List Char) :=
  altP
    (bindP digit1 (fun ds =>
      bindP (optP fracP) (fun fr => pureP (ds ++ fr.getD []))))
    (bindP (charP '.') (fun _ =>
      bindP digit1 (fun ds => pureP ('.' :: ds))))

/-- The exponent of nom `recognize_float`: `(e|E) sign? digit1` (nom wraps
the final `digit1` in `cut`, turning its error into `Err::Failure`;
collapsed to `err` here, see the header comment). -/
def expP : Parser (List Char) :=
  bindP (altP (charP 'e') (charP 'E')) (fun e =>
    bindP (optP (altP (charP '+') (charP '-'))) (fun sg =>
      bindP digit1 (fun ds => pureP (e :: (optList sg ++ ds)))))

/-- nom `number::streaming::recognize_float`: optional sign, mantissa,
optional exponent; the value is the recognized literal. -/
def recognize_float : Parser (List Char) :=
  bindP (optP (altP (charP '+') (charP '-'))) (fun sg =>
    bindP mantissaP (fun m =>
      bindP (optP expP) (fun ex => pureP (optList sg ++ m ++ ex.getD []))))

/-- nom `number::streaming::float` (lib.rs:8): the recognized literal
(Rust additionally converts it to `f32`, which cannot fail on literals
accepted by `recognize_float`; the `nan`/`inf` special forms are omitted,
see the header comment). -/
def float : Parser (List Char) := recognize_float

/-- `Note` (lib.rs:64): a ratio of two `u64`s, or a cents value (`f32` in
Rust, kept as the source literal here). -/
inductive Note : Type where
  | ratio (numerator denominator : Nat)
  | cents (lit : List Char)
deriving DecidableEq, Repr

/-- `Scale` (lib.rs:30). -/
structure Scale : Type where
  description : List Char
  notes : List Note
deriving DecidableEq, Repr

/-- `note_cents` (lib.rs:75): a float, then the rest of the line discarded. -/
def note_cents : Parser Note :=
  bindP float (fun f => bindP take_line (fun _ => pureP (.cents f)))

/-- `note_ratio` (lib.rs:83): `u64 "/" u64` via `num_u64`. -/
def note_ratio : Parser Note :=
  bindP num_u64 (fun n =>
    bindP (tagP ['/']) (fun _ =>
      bindP num_u64 (fun d => pureP (.ratio n d))))

/-- `note` (lib.rs:70): optional leading spaces, then cents-or-ratio. -/
def note : Parser Note :=
  bindP (optP space0) (fun _ => altP note_cents note_ratio)

/-- nom `multi::count`: exactly `n` repetitions. -/
def countP {α : Type} (p : Parser α) : Nat → Parser (List α)
  | 0 => pureP []
  | n + 1 => bindP p (fun v => bindP (countP p n) (fun vs => pureP (v :: vs)))

/-- One repetition of line 18 of lib.rs: `tuple((many_comments, note))`. -/
def noteEntry : Parser (List (List Char) × Note) :=
  bindP many_comments (fun cs => bindP note (fun nt => pureP (cs, nt)))

/-- `parse_scala` (lib.rs:13): comments, description line, comments,
spaces, note count, then `note_count` entries; the comment lists are
discarded and the entries' notes collected. -/
def parse_scala : Parser Scale :=
  bindP many_comments (fun _ =>
    bindP take_line (fun desc =>
      bindP many_comments (fun _ =>
        bindP space0 (fun _ =>
          bindP num_u64 (fun n =>
            bindP (countP noteEntry n) (fun entries =>
              pureP ⟨desc, entries.map Prod.snd⟩))))))

/-- `Scale::from_str` (lib.rs:43): the public entry point; the error
value (a stringified nom error) is collapsed to `none`. -/
def from_str (i : List Char) : Option Scale :=
  match parse_scala i with
  | .ok _ sc => some sc
  | .err => none
  | .inc => none

/-- String literal to parser input. -/
def s2c (s : String) : List Char := s.data

/-! ## Properties of streaming parsers

`ExtOk`/`ExtErr`: a streaming parser that succeeds (resp. definitely
fails) on an input behaves the same when more bytes are appended — the
defining property of nom's streaming combinators, used for the
trailing-bytes and comment-transparency claims. -/

/-- Appending input preserves success, extending the remainder. -/
def ExtOk {α : Type} (p : Parser α) : Prop :=
  ∀ i t r v, p i = .ok r v → p (i ++ t) = .ok (r ++ t) v

/-- Appending input preserves definite failure. -/
def ExtErr {α : Type} (p : Parser α) : Prop :=
  ∀ i t, p i = .err → p (i ++ t) = .err

/-- On a newline-free line followed by a newline, the parser either
definitely fails or consumes part of the line, never touching the
newline and never asking for more input. -/
def NlOk {α : Type} (p : Parser α) : Prop :=
  ∀ a, '\n' ∉ a →
    p (a ++ ['\n']) = .err ∨
    ∃ a1 a2 v, a = a1 ++ a2 ∧ p (a ++ ['\n']) = .ok (a2 ++ ['\n']) v

/-! ## A structured `.scl` document, for the comment-transparency claim

`render` lays out comment lines (each `!text\n`) at the three legal
interleave points of the grammar: before the description line, before
the note-count line, and before each interval line. -/

/-- Render a list of comment texts as consecutive `!...\n` lines. -/
def rcs : List (List Char) → List Char
  | [] => []
  | t :: r => '!' :: (t ++ '\n' :: rcs r)

/-- A structured document: comments before the description, the
description line, comments before the count line, the count line, and
the interval entries, each with the comments preceding it. -/
structure ScalaDoc : Type where
  lead : List (List Char)
  desc : List Char
  mid : List (List Char)
  countLine : List Char
  entries : List (List (List Char) × List Char)

/-- Render the entry list: each entry's comments, then its line. -/
def renderEntries : List (List (List Char) × List Char) → List Char
  | [] => []
  | (cs, e) :: r => rcs cs ++ (e ++ '\n' :: renderEntries r)

/-- Render a structured document to parser input. -/
def render (d : ScalaDoc) : List Char :=
  rcs d.lead ++ (d.desc ++ '\n' ::
    (rcs d.mid ++ (d.countLine ++ '\n' :: renderEntries d.entries)))

/-- The same document with every comment removed. -/
def stripDoc (d : ScalaDoc) : ScalaDoc :=
  ⟨[], d.desc, [], d.countLine, d.entries.map (fun p => ([], p.2))⟩

/-- No newline inside a rendered line or comment text. -/
def noNl : List Char → Bool
  | [] => true
  | c :: r => if c = '\n' then false else noNl r

/-- A significant (non-comment) line: no newline, not starting with `!`. -/
def lineOK (l : List Char) : Bool :=
  noNl l && (match l with | '!' :: _ => false | _ => true)

/-- Every comment text is newline-free. -/
def commentsOK (cs : List (List Char)) : Bool := cs.all noNl

/-- Well-formedness of a structured document: lines are newline-free and
do not themselves start with `!`, comment texts are newline-free. -/
def docOK (d : ScalaDoc) : Bool :=
  commentsOK d.lead && lineOK d.desc && commentsOK d.mid &&
    lineOK d.countLine && d.entries.all (fun p => commentsOK p.1 && lineOK p.2)

/-- Two parse results agree: same outcome kind, and on success the same
`Scale` (description, note count and note values); the unconsumed
remainders may differ. -/
def agreeRes : PRes Scale → PRes Scale → Prop
  | .ok _ s1, .ok _ s2 => s1 = s2
  | .err, .err => True
  | .inc, .inc => True
  | _, _ => False

/-- Two repetition results agree: same outcome kind and the same parsed
notes (the comment components and remainders may differ). -/
def agreePairs :
    PRes (List (List (List Char) × Note)) →
    PRes (List (List (List Char) × Note)) → Prop
  | .ok _ l1, .ok _ l2 => l1.map Prod.snd = l2.map Prod.snd
  | .err, .err => True
  | .inc, .inc => True
  | _, _ => False

/-- Prepend one parsed value to the result of a repetition parser
(the shape of one `many0` step). -/
def consRes {α : Type} (v : α) : PRes (List α) → PRes (List α)
  | .ok r2 vs => .ok r2 (v :: vs)
  | .err => .err
  | .inc => .inc

/-! ## List helpers -/

theorem dropWhile_append_ne {p : Char → Bool} {i : List Char}
    (h : i.dropWhile p ≠ []) (t : List Char) :
    (i ++ t).dropWhile p = i.dropWhile p ++ t := by
  induction i with
  | nil => exact absurd rfl h
  | cons c r ih =>
    cases hc : p c with
    | true =>
      rw [List.dropWhile_cons, if_pos hc] at h
      simp [List.dropWhile_cons, hc, ih h]
    | false =>
      simp [List.dropWhile_cons, hc]

theorem takeWhile_append_ne {p : Char → Bool} {i : List Char}
    (h : i.dropWhile p ≠ []) (t : List Char) :
    (i ++ t).takeWhile p = i.takeWhile p := by
  induction i with
  | nil => exact absurd rfl h
  | cons c r ih =>
    cases hc : p c with
    | true =>
      rw [List.dropWhile_cons, if_pos hc] at h
      simp [List.takeWhile_cons, hc, ih h]
    | false =>
      simp [List.takeWhile_cons, hc]

theorem dropWhile_append_stop {p : Char → Bool} {b : Char}
    (hb : p b = false) (a s : List Char) :
    (a ++ b :: s).dropWhile p = a.dropWhile p ++ b :: s := by
  induction a with
  | nil => simp [List.dropWhile, hb]
  | cons c r ih =>
    cases hc : p c <;> simp [List.dropWhile, hc, ih]

theorem takeWhile_append_stop {p : Char → Bool} {b : Char}
    (hb : p b = false) (a s : List Char) :
    (a ++ b :: s).takeWhile p = a.takeWhile p := by
  induction a with
  | nil => simp [List.takeWhile, hb]
  | cons c r ih =>
    cases hc : p c <;> simp [List.takeWhile, hc, ih]

theorem noNl_iff {l : List Char} : noNl l = true ↔ '\n' ∉ l := by
  induction l with
  | nil => simp [noNl]
  | cons c r ih =>
    by_cases hc : c = '\n'
    · subst hc
      simp [noNl]
    · simp only [noNl, if_neg hc, ih, List.mem_cons]
      constructor
      · intro h hm
        rcases hm with hm | hm
        · exact hc hm.symm
        · exact h hm
      · intro h hm
        exact h (Or.inr hm)

/-! ## Extension properties: combinators -/

theorem extOk_pure {α : Type} (v : α) : ExtOk (pureP v) := by
  intro i t r w h
  simp [pureP] at h
  simp [pureP, h.1, h.2]

theorem extErr_pure {α : Type} (v : α) : ExtErr (pureP v) := by
  intro i t h
  simp [pureP] at h

theorem extOk_bind {α β : Type} {p : Parser α} {f : α → Parser β}
    (hp : ExtOk p) (hf : ∀ v, ExtOk (f v)) : ExtOk (bindP p f) := by
  intro i t r w h
  unfold bindP at h ⊢
  cases hpi : p i with
  | ok r1 v =>
    rw [hpi] at h
    rw [hp i t r1 v hpi]
    exact hf v r1 t r w h
  | err => rw [hpi] at h; cases h
  | inc => rw [hpi] at h; cases h

theorem extErr_bind {α β : Type} {p : Parser α} {f : α → Parser β}
    (hpo : ExtOk p) (hpe : ExtErr p) (hfe : ∀ v, ExtErr (f v)) :
    ExtErr (bindP p f) := by
  intro i t h
  unfold bindP at h ⊢
  cases hpi : p i with
  | ok r1 v =>
    rw [hpi] at h
    rw [hpo i t r1 v hpi]
    exact hfe v r1 t h
  | err => rw [hpe i t hpi]
  | inc => rw [hpi] at h; cases h

theorem extOk_alt {α : Type} {p q : Parser α}
    (hp : ExtOk p) (hpe : ExtErr p) (hq : ExtOk q) : ExtOk (altP p q) := by
  intro i t r v h
  unfold altP at h ⊢
  cases hpi : p i with
  | ok r1 v1 =>
    rw [hpi] at h
    simp only [PRes.ok.injEq] at h
    obtain ⟨h1, h2⟩ := h
    subst h1; subst h2
    rw [hp i t r1 v1 hpi]
  | err =>
    rw [hpi] at h
    rw [hpe i t hpi]
    exact hq i t r v h
  | inc => rw [hpi] at h; cases h

theorem extErr_alt {α : Type} {p q : Parser α}
    (hpe : ExtErr p) (hqe : ExtErr q) : ExtErr (altP p q) := by
  intro i t h
  unfold altP at h ⊢
  cases hpi : p i with
  | ok r1 v1 => rw [hpi] at h; cases h
  | err =>
    rw [hpi] at h
    rw [hpe i t hpi]
    exact hqe i t h
  | inc => rw [hpi] at h; cases h

theorem extOk_opt {α : Type} {p : Parser α}
    (hp : ExtOk p) (hpe : ExtErr p) : ExtOk (optP p) := by
  intro i t r v h
  unfold optP at h ⊢
  cases hpi : p i with
  | ok r1 v1 =>
    rw [hpi] at h
    simp only [PRes.ok.injEq] at h
    obtain ⟨h1, h2⟩ := h
    subst h1; subst h2
    rw [hp i t r1 v1 hpi]
  | err =>
    rw [hpi] at h
    simp only [PRes.ok.injEq] at h
    obtain ⟨h1, h2⟩ := h
    subst h1; subst h2
    rw [hpe i t hpi]
  | inc => rw [hpi] at h; cases h

theorem extErr_opt {α : Type} {p : Parser α} : ExtErr (optP p) := by
  intro i t h
  unfold optP at h
  cases hpi : p i <;> rw [hpi] at h <;> cases h

/-! ## Extension properties: primitives -/

theorem extOk_char (c : Char) : ExtOk (charP c) := by
  intro i t r v h
  cases i with
  | nil => cases h
  | cons a r0 =>
    by_cases ha : a = c
    · simp only [charP, if_pos ha, PRes.ok.injEq] at h
      obtain ⟨h1, h2⟩ := h
      subst h1; subst h2
      simp [charP, if_pos ha]
    · simp only [charP, if_neg ha] at h
      cases h

theorem extErr_char (c : Char) : ExtErr (charP c) := by
  intro i t h
  cases i with
  | nil => cases h
  | cons a r0 =>
    by_cases ha : a = c
    · simp only [charP, if_pos ha] at h
      cases h
    · simp [charP, if_neg ha]

theorem extOk_tag (tg : List Char) : ExtOk (tagP tg) := by
  induction tg with
  | nil =>
    intro i t r v h
    simp only [tagP, PRes.ok.injEq] at h
    obtain ⟨h1, h2⟩ := h
    subst h1
    simp [tagP]
  | cons c tg ih =>
    intro i t r v h
    cases i with
    | nil => cases h
    | cons a r0 =>
      by_cases ha : a = c
      · simp only [tagP, if_pos ha] at h
        simp only [List.cons_append, tagP, if_pos ha]
        exact ih r0 t r v h
      · simp only [tagP, if_neg ha] at h
        cases h

theorem extErr_tag (tg : List Char) : ExtErr (tagP tg) := by
  induction tg with
  | nil => intro i t h; cases h
  | cons c tg ih =>
    intro i t h
    cases i with
    | nil => cases h
    | cons a r0 =>
      by_cases ha : a = c
      · simp only [tagP, if_pos ha] at h
        simp only [List.cons_append, tagP, if_pos ha]
        exact ih r0 t h
      · simp [List.cons_append, tagP, if_neg ha]

theorem extOk_space0 : ExtOk space0 := by
  intro i t r v h
  by_cases hd : i.dropWhile isSpaceTab = []
  · simp only [space0, if_pos hd] at h
    cases h
  · simp only [space0, if_neg hd, PRes.ok.injEq] at h
    obtain ⟨h1, h2⟩ := h
    subst h1; subst h2
    simp only [space0, dropWhile_append_ne hd, takeWhile_append_ne hd]
    rw [if_neg (by simp [hd])]

theorem extErr_space0 : ExtErr space0 := by
  intro i t h
  by_cases hd : i.dropWhile isSpaceTab = [] <;> simp [space0, hd] at h

theorem extOk_digit1 : ExtOk digit1 := by
  intro i t r v h
  cases i with
  | nil => cases h
  | cons c r0 =>
    by_cases hc : c.isDigit
    · by_cases hd : (c :: r0).dropWhile Char.isDigit = []
      · simp only [digit1, if_pos hc, if_pos hd] at h
        cases h
      · simp only [digit1, if_pos hc, if_neg hd, PRes.ok.injEq] at h
        obtain ⟨h1, h2⟩ := h
        subst h1; subst h2
        simp only [List.cons_append, digit1, if_pos hc, List.append_eq]
        rw [← List.cons_append, dropWhile_append_ne hd, takeWhile_append_ne hd]
        rw [if_neg (by simp [hd])]
    · simp only [digit1, if_neg hc] at h
      cases h

theorem extErr_digit1 : ExtErr digit1 := by
  intro i t h
  cases i with
  | nil => cases h
  | cons c r0 =>
    by_cases hc : c.isDigit
    · by_cases hd : (c :: r0).dropWhile Char.isDigit = []
      · simp only [digit1, if_pos hc, if_pos hd] at h
        cases h
      · simp only [digit1, if_pos hc, if_neg hd] at h
        cases h
    · simp [digit1, List.cons_append, if_neg hc]

theorem extOk_u64P : ExtOk u64P := by
  intro i t r v h
  cases i with
  | nil => cases h
  | cons c r0 =>
    by_cases hc : c.isDigit
    · by_cases hd : (c :: r0).dropWhile Char.isDigit = []
      · simp only [u64P, if_pos hc, if_pos hd] at h
        cases h
      · by_cases hv : natOfDigits ((c :: r0).takeWhile Char.isDigit) < 2 ^ 64
        · simp only [u64P, if_pos hc, if_neg hd, if_pos hv, PRes.ok.injEq] at h
          obtain ⟨h1, h2⟩ := h
          subst h1; subst h2
          simp only [List.cons_append, u64P, if_pos hc, List.append_eq]
          rw [← List.cons_append, dropWhile_append_ne hd, takeWhile_append_ne hd]
          rw [if_neg (by simp [hd]), if_pos hv]
        · simp only [u64P, if_pos hc, if_neg hd, if_neg hv] at h
          cases h
    · simp only [u64P, if_neg hc] at h
      cases h

theorem extErr_u64P : ExtErr u64P := by
  intro i t h
  cases i with
  | nil => cases h
  | cons c r0 =>
    by_cases hc : c.isDigit
    · by_cases hd : (c :: r0).dropWhile Char.isDigit = []
      · simp only [u64P, if_pos hc, if_pos hd] at h
        cases h
      · by_cases hv : natOfDigits ((c :: r0).takeWhile Char.isDigit) < 2 ^ 64
        · simp only [u64P, if_pos hc, if_neg hd, if_pos hv] at h
          cases h
        · simp only [List.cons_append, u64P, if_pos hc, List.append_eq]
          rw [← List.cons_append, dropWhile_append_ne hd, takeWhile_append_ne hd]
          rw [if_neg (by simp [hd]), if_neg hv]
    · simp [u64P, List.cons_append, if_neg hc]

theorem extOk_num : ExtOk num_u64 := by
  intro i t r v h
  simp only [num_u64] at h ⊢
  cases hu : u64P i with
  | ok r1 n =>
    rw [hu] at h
    simp only [PRes.ok.injEq] at h
    obtain ⟨h1, h2⟩ := h
    subst h1; subst h2
    rw [extOk_u64P i t r1 n hu]
  | err => rw [hu] at h; cases h
  | inc => rw [hu] at h; cases h

theorem extErr_num : ExtErr num_u64 := by
  intro i t h
  simp only [num_u64] at h ⊢
  cases hu : u64P i with
  | ok r1 n => rw [hu] at h; cases h
  | err => rw [extErr_u64P i t hu]
  | inc => rw [hu] at h; cases h

theorem tun_ne_err (i : List Char) : takeUntilNl i ≠ .err := by
  induction i with
  | nil => simp [takeUntilNl]
  | cons c r ih =>
    by_cases hc : c = '\n'
    · simp [takeUntilNl, if_pos hc]
    · simp only [takeUntilNl, if_neg hc]
      cases ht : takeUntilNl r with
      | ok rest l => simp
      | err => exact absurd ht ih
      | inc => simp

theorem extOk_tun : ExtOk takeUntilNl := by
  intro i t r v h
  induction i generalizing r v with
  | nil => cases h
  | cons c r0 ih =>
    by_cases hc : c = '\n'
    · simp only [takeUntilNl, if_pos hc, PRes.ok.injEq] at h
      obtain ⟨h1, h2⟩ := h
      subst h1; subst h2
      simp [takeUntilNl, List.cons_append, if_pos hc]
    · simp only [takeUntilNl, if_neg hc] at h
      simp only [List.cons_append, takeUntilNl, if_neg hc, List.append_eq]
      cases ht : takeUntilNl r0 with
      | ok rest l =>
        rw [ht] at h
        simp only [PRes.ok.injEq] at h
        obtain ⟨h1, h2⟩ := h
        subst h1; subst h2
        rw [ih rest l ht]
      | err => exact absurd ht (tun_ne_err r0)
      | inc => rw [ht] at h; cases h

theorem extErr_tun : ExtErr takeUntilNl := by
  intro i t h
  exact absurd h (tun_ne_err i)

theorem extOk_take_line : ExtOk take_line :=
  extOk_bind extOk_tun (fun l =>
    extOk_bind (extOk_opt (extOk_char '\n') (extErr_char '\n'))
      (fun _ => extOk_pure (trim l)))

theorem extErr_take_line : ExtErr take_line :=
  extErr_bind extOk_tun extErr_tun (fun l =>
    extErr_bind (extOk_opt (extOk_char '\n') (extErr_char '\n')) extErr_opt
      (fun _ => extErr_pure (trim l)))

theorem extOk_comment : ExtOk comment :=
  extOk_bind (extOk_tag ['!']) (fun _ => extOk_take_line)

theorem extErr_comment : ExtErr comment :=
  extErr_bind (extOk_tag ['!']) (extErr_tag ['!']) (fun _ => extErr_take_line)

/-! ## Extension properties: many0, count, and the full parser -/

theorem many0F_congr {α : Type} (p : Parser α) :
    ∀ f g i, i.length < f → i.length < g → many0F p f i = many0F p g i := by
  intro f
  induction f with
  | zero => intro g i hf hg; omega
  | succ f ih =>
    intro g i hf hg
    cases g with
    | zero => omega
    | succ g =>
      cases hp : p i with
      | err => simp only [many0F, hp]
      | inc => simp only [many0F, hp]
      | ok r v =>
        simp only [many0F, hp]
        by_cases hr : r.length < i.length
        · simp only [if_pos hr]
          rw [ih g r (by omega) (by omega)]
        · simp only [if_neg hr]

theorem many0F_ext_ok {α : Type} {p : Parser α} (hp : ExtOk p) (hpe : ExtErr p) :
    ∀ f g i t r l, i.length < f → (i ++ t).length < g →
      many0F p f i = .ok r l → many0F p g (i ++ t) = .ok (r ++ t) l := by
  intro f
  induction f with
  | zero => intro g i t r l hf hg h; omega
  | succ f ih =>
    intro g i t r l hf hg h
    cases g with
    | zero => omega
    | succ g =>
      cases hpi : p i with
      | err =>
        simp only [many0F, hpi, PRes.ok.injEq] at h
        obtain ⟨h1, h2⟩ := h
        subst h1; subst h2
        simp only [many0F, hpe i t hpi]
      | inc => simp only [many0F, hpi] at h; cases h
      | ok r1 v =>
        simp only [many0F, hpi] at h
        by_cases hr : r1.length < i.length
        · rw [if_pos hr] at h
          cases hm : many0F p f r1 with
          | ok r2 l2 =>
            rw [hm] at h
            simp only [PRes.ok.injEq] at h
            obtain ⟨h1, h2⟩ := h
            subst h1; subst h2
            simp only [many0F, hp i t r1 v hpi]
            rw [if_pos (by simp only [List.length_append]; omega)]
            rw [ih g r1 t r2 l2 (by omega)
              (by simp only [List.length_append] at hg ⊢; omega) hm]
          | err => rw [hm] at h; cases h
          | inc => rw [hm] at h; cases h
        · rw [if_neg hr] at h; cases h

theorem many0F_ext_err {α : Type} {p : Parser α} (hp : ExtOk p) (hpe : ExtErr p) :
    ∀ f g i t, i.length < f → (i ++ t).length < g →
      many0F p f i = .err → many0F p g (i ++ t) = .err := by
  intro f
  induction f with
  | zero => intro g i t hf hg h; omega
  | succ f ih =>
    intro g i t hf hg h
    cases g with
    | zero => omega
    | succ g =>
      cases hpi : p i with
      | err => simp only [many0F, hpi] at h; cases h
      | inc => simp only [many0F, hpi] at h; cases h
      | ok r1 v =>
        simp only [many0F, hpi] at h
        simp only [many0F, hp i t r1 v hpi]
        by_cases hr : r1.length < i.length
        · rw [if_pos hr] at h
          rw [if_pos (by simp only [List.length_append]; omega)]
          cases hm : many0F p f r1 with
          | ok r2 l2 => rw [hm] at h; cases h
          | err =>
            rw [ih g r1 t (by omega)
              (by simp only [List.length_append] at hg ⊢; omega) hm]
          | inc => rw [hm] at h; cases h
        · rw [if_neg hr] at h
          rw [if_neg (by simp only [List.length_append]; omega)]

theorem extOk_mc : ExtOk many_comments := by
  intro i t r l h
  exact many0F_ext_ok extOk_comment extErr_comment (i.length + 1)
    ((i ++ t).length + 1) i t r l (by omega) (by omega) h

theorem extErr_mc : ExtErr many_comments := by
  intro i t h
  exact many0F_ext_err extOk_comment extErr_comment (i.length + 1)
    ((i ++ t).length + 1) i t (by omega) (by omega) h

theorem extOk_frac : ExtOk fracP :=
  extOk_bind (extOk_char '.') (fun _ =>
    extOk_bind (extOk_opt extOk_digit1 extErr_digit1) (fun ds => extOk_pure _))

theorem extErr_frac : ExtErr fracP :=
  extErr_bind (extOk_char '.') (extErr_char '.') (fun _ =>
    extErr_bind (extOk_opt extOk_digit1 extErr_digit1) extErr_opt
      (fun ds => extErr_pure _))

theorem extOk_mantissa : ExtOk mantissaP :=
  extOk_alt
    (extOk_bind extOk_digit1 (fun ds =>
      extOk_bind (extOk_opt extOk_frac extErr_frac) (fun fr => extOk_pure _)))
    (extErr_bind extOk_digit1 extErr_digit1 (fun ds =>
      extErr_bind (extOk_opt extOk_frac extErr_frac) extErr_opt
        (fun fr => extErr_pure _)))
    (extOk_bind (extOk_char '.') (fun _ =>
      extOk_bind extOk_digit1 (fun ds => extOk_pure _)))

theorem extErr_mantissa : ExtErr mantissaP :=
  extErr_alt
    (extErr_bind extOk_digit1 extErr_digit1 (fun ds =>
      extErr_bind (extOk_opt extOk_frac extErr_frac) extErr_opt
        (fun fr => extErr_pure _)))
    (extErr_bind (extOk_char '.') (extErr_char '.') (fun _ =>
      extErr_bind extOk_digit1 extErr_digit1 (fun ds => extErr_pure _)))

theorem extOk_exp : ExtOk expP :=
  extOk_bind
    (extOk_alt (extOk_char 'e') (extErr_char 'e') (extOk_char 'E'))
    (fun e => extOk_bind
      (extOk_opt (extOk_alt (extOk_char '+') (extErr_char '+') (extOk_char '-'))
        (extErr_alt (extErr_char '+') (extErr_char '-')))
      (fun sg => extOk_bind extOk_digit1 (fun ds => extOk_pure _)))

theorem extErr_exp : ExtErr expP :=
  extErr_bind
    (extOk_alt (extOk_char 'e') (extErr_char 'e') (extOk_char 'E'))
    (extErr_alt (extErr_char 'e') (extErr_char 'E'))
    (fun e => extErr_bind
      (extOk_opt (extOk_alt (extOk_char '+') (extErr_char '+') (extOk_char '-'))
        (extErr_alt (extErr_char '+') (extErr_char '-')))
      extErr_opt
      (fun sg => extErr_bind extOk_digit1 extErr_digit1 (fun ds => extErr_pure _)))

theorem extOk_rf : ExtOk recognize_float :=
  extOk_bind
    (extOk_opt (extOk_alt (extOk_char '+') (extErr_char '+') (extOk_char '-'))
      (extErr_alt (extErr_char '+') (extErr_char '-')))
    (fun sg => extOk_bind extOk_mantissa (fun m =>
      extOk_bind (extOk_opt extOk_exp extErr_exp) (fun ex => extOk_pure _)))

theorem extErr_rf : ExtErr recognize_float :=
  extErr_bind
    (extOk_opt (extOk_alt (extOk_char '+') (extErr_char '+') (extOk_char '-'))
      (extErr_alt (extErr_char '+') (extErr_char '-')))
    extErr_opt
    (fun sg => extErr_bind extOk_mantissa extErr_mantissa (fun m =>
      extErr_bind (extOk_opt extOk_exp extErr_exp) extErr_opt
        (fun ex => extErr_pure _)))

theorem extOk_float : ExtOk float := extOk_rf

theorem extErr_float : ExtErr float := extErr_rf

theorem extOk_note_cents : ExtOk note_cents :=
  extOk_bind extOk_float (fun f =>
    extOk_bind extOk_take_line (fun _ => extOk_pure _))

theorem extErr_note_cents : ExtErr note_cents :=
  extErr_bind extOk_float extErr_float (fun f =>
    extErr_bind extOk_take_line extErr_take_line (fun _ => extErr_pure _))

theorem extOk_note_ratio : ExtOk note_ratio :=
  extOk_bind extOk_num (fun n =>
    extOk_bind (extOk_tag ['/']) (fun _ =>
      extOk_bind extOk_num (fun d => extOk_pure _)))

theorem extErr_note_ratio : ExtErr note_ratio :=
  extErr_bind extOk_num extErr_num (fun n =>
    extErr_bind (extOk_tag ['/']) (extErr_tag ['/']) (fun _ =>
      extErr_bind extOk_num extErr_num (fun d => extErr_pure _)))

theorem extOk_note : ExtOk note :=
  extOk_bind (extOk_opt extOk_space0 extErr_space0) (fun _ =>
    extOk_alt extOk_note_cents extErr_note_cents extOk_note_ratio)

theorem extErr_note : ExtErr note :=
  extErr_bind (extOk_opt extOk_space0 extErr_space0) extErr_opt (fun _ =>
    extErr_alt extErr_note_cents extErr_note_ratio)

theorem extOk_noteEntry : ExtOk noteEntry :=
  extOk_bind extOk_mc (fun cs =>
    extOk_bind extOk_note (fun nt => extOk_pure _))

theorem extErr_noteEntry : ExtErr noteEntry :=
  extErr_bind extOk_mc extErr_mc (fun cs =>
    extErr_bind extOk_note extErr_note (fun nt => extErr_pure _))

theorem extOk_count {α : Type} {p : Parser α} (hp : ExtOk p) (hpe : ExtErr p) :
    ∀ n, ExtOk (countP p n) := by
  intro n
  induction n with
  | zero => exact extOk_pure []
  | succ n ih =>
    exact extOk_bind hp (fun v => extOk_bind ih (fun vs => extOk_pure _))

theorem extErr_count {α : Type} {p : Parser α} (hp : ExtOk p) (hpe : ExtErr p) :
    ∀ n, ExtErr (countP p n) := by
  intro n
  induction n with
  | zero => exact extErr_pure []
  | succ n ih =>
    exact extErr_bind hp hpe (fun v =>
      extErr_bind (extOk_count hp hpe n) ih (fun vs => extErr_pure _))

theorem extOk_parse_scala : ExtOk parse_scala :=
  extOk_bind extOk_mc (fun _ =>
    extOk_bind extOk_take_line (fun desc =>
      extOk_bind extOk_mc (fun _ =>
        extOk_bind extOk_space0 (fun _ =>
          extOk_bind extOk_num (fun n =>
            extOk_bind (extOk_count extOk_noteEntry extErr_noteEntry n)
              (fun entries => extOk_pure _))))))

/-! ## Line-locality: parsers acting inside a single line -/

theorem nlOk_pure {α : Type} (v : α) : NlOk (pureP v) := by
  intro a ha
  exact Or.inr ⟨[], a, v, rfl, rfl⟩

theorem nlOk_bind {α β : Type} {p : Parser α} {f : α → Parser β}
    (hp : NlOk p) (hf : ∀ v, NlOk (f v)) : NlOk (bindP p f) := by
  intro a ha
  rcases hp a ha with herr | ⟨a1, a2, v, hsplit, hok⟩
  · left
    simp only [bindP, herr]
  · have ha2 : '\n' ∉ a2 := by
      intro hm
      exact ha (hsplit ▸ List.mem_append.mpr (Or.inr hm))
    rcases hf v a2 ha2 with herr2 | ⟨b1, b2, w, hs2, hok2⟩
    · left
      simp only [bindP, hok, herr2]
    · right
      refine ⟨a1 ++ b1, b2, w, ?_, ?_⟩
      · rw [hsplit, hs2, List.append_assoc]
      · simp only [bindP, hok, hok2]

theorem nlOk_alt {α : Type} {p q : Parser α}
    (hp : NlOk p) (hq : NlOk q) : NlOk (altP p q) := by
  intro a ha
  rcases hp a ha with herr | ⟨a1, a2, v, hsplit, hok⟩
  · rcases hq a ha with herr2 | ⟨a1, a2, v, hsplit, hok⟩
    · left
      simp only [altP, herr, herr2]
    · right
      exact ⟨a1, a2, v, hsplit, by simp only [altP, herr, hok]⟩
  · right
    exact ⟨a1, a2, v, hsplit, by simp only [altP, hok]⟩

theorem nlOk_opt {α : Type} {p : Parser α} (hp : NlOk p) : NlOk (optP p) := by
  intro a ha
  rcases hp a ha with herr | ⟨a1, a2, v, hsplit, hok⟩
  · right
    exact ⟨[], a, none, rfl, by simp only [optP, herr]⟩
  · right
    exact ⟨a1, a2, some v, hsplit, by simp only [optP, hok]⟩

theorem nlOk_char {c : Char} (hc : c ≠ '\n') : NlOk (charP c) := by
  intro a ha
  cases a with
  | nil =>
    left
    simp only [List.nil_append, charP]
    rw [if_neg (by intro h; exact hc h.symm)]
  | cons x a2 =>
    by_cases hx : x = c
    · right
      exact ⟨[x], a2, x, rfl, by simp only [List.cons_append, charP, if_pos hx]⟩
    · left
      simp only [List.cons_append, charP, if_neg hx]

theorem nlOk_digit1 : NlOk digit1 := by
  intro a ha
  cases a with
  | nil =>
    left
    simp only [List.nil_append, digit1]
    rw [if_neg (by simp [Char.isDigit])]
  | cons x a2 =>
    by_cases hx : x.isDigit
    · right
      have hnl : Char.isDigit '\n' = false := by simp [Char.isDigit]
      have hd : ((x :: a2) ++ ['\n']).dropWhile Char.isDigit
          = (x :: a2).dropWhile Char.isDigit ++ ['\n'] :=
        dropWhile_append_stop hnl (x :: a2) []
      have ht : ((x :: a2) ++ ['\n']).takeWhile Char.isDigit
          = (x :: a2).takeWhile Char.isDigit :=
        takeWhile_append_stop hnl (x :: a2) []
      simp only [List.cons_append] at hd ht
      refine ⟨(x :: a2).takeWhile Char.isDigit, (x :: a2).dropWhile Char.isDigit,
        (x :: a2).takeWhile Char.isDigit,
        (List.takeWhile_append_dropWhile Char.isDigit (x :: a2)).symm, ?_⟩
      simp only [List.cons_append, digit1, if_pos hx, hd, ht]
      rw [if_neg (by simp)]
    · left
      simp only [List.cons_append, digit1, if_neg hx]

theorem nlOk_space0 : NlOk space0 := by
  intro a ha
  right
  have hnl : isSpaceTab '\n' = false := by simp [isSpaceTab]
  have hd : (a ++ ['\n']).dropWhile isSpaceTab = a.dropWhile isSpaceTab ++ ['\n'] :=
    dropWhile_append_stop hnl a []
  have ht : (a ++ ['\n']).takeWhile isSpaceTab = a.takeWhile isSpaceTab :=
    takeWhile_append_stop hnl a []
  refine ⟨a.takeWhile isSpaceTab, a.dropWhile isSpaceTab, a.takeWhile isSpaceTab,
    (List.takeWhile_append_dropWhile isSpaceTab a).symm, ?_⟩
  simp only [space0, hd, ht]
  rw [if_neg (by simp)]

theorem nlOk_num : NlOk num_u64 := by
  intro a ha
  cases a with
  | nil =>
    left
    simp only [List.nil_append, num_u64, u64P]
    rw [if_neg (by simp [Char.isDigit])]
  | cons x a2 =>
    by_cases hx : x.isDigit
    · have hnl : Char.isDigit '\n' = false := by simp [Char.isDigit]
      have hd : ((x :: a2) ++ ['\n']).dropWhile Char.isDigit
          = (x :: a2).dropWhile Char.isDigit ++ ['\n'] :=
        dropWhile_append_stop hnl (x :: a2) []
      have ht : ((x :: a2) ++ ['\n']).takeWhile Char.isDigit
          = (x :: a2).takeWhile Char.isDigit :=
        takeWhile_append_stop hnl (x :: a2) []
      simp only [List.cons_append] at hd ht
      by_cases hv : natOfDigits ((x :: a2).takeWhile Char.isDigit) < 2 ^ 64
      · right
        refine ⟨[], x :: a2, natOfDigits ((x :: a2).takeWhile Char.isDigit), rfl, ?_⟩
        simp only [List.cons_append, num_u64, u64P, if_pos hx, hd, ht]
        rw [if_neg (by simp), if_pos hv]
      · left
        simp only [List.cons_append, num_u64, u64P, if_pos hx, hd, ht]
        rw [if_neg (by simp), if_neg hv]
    · left
      simp only [num_u64, u64P, List.cons_append, if_neg hx]

theorem nlOk_frac : NlOk fracP :=
  nlOk_bind (nlOk_char (by decide)) (fun _ =>
    nlOk_bind (nlOk_opt nlOk_digit1) (fun ds => nlOk_pure _))

theorem nlOk_mantissa : NlOk mantissaP :=
  nlOk_alt
    (nlOk_bind nlOk_digit1 (fun ds =>
      nlOk_bind (nlOk_opt nlOk_frac) (fun fr => nlOk_pure _)))
    (nlOk_bind (nlOk_char (by decide)) (fun _ =>
      nlOk_bind nlOk_digit1 (fun ds => nlOk_pure _)))

theorem nlOk_exp : NlOk expP :=
  nlOk_bind (nlOk_alt (nlOk_char (by decide)) (nlOk_char (by decide))) (fun e =>
    nlOk_bind (nlOk_opt (nlOk_alt (nlOk_char (by decide)) (nlOk_char (by decide))))
      (fun sg => nlOk_bind nlOk_digit1 (fun ds => nlOk_pure _)))

theorem nlOk_rf : NlOk recognize_float :=
  nlOk_bind (nlOk_opt (nlOk_alt (nlOk_char (by decide)) (nlOk_char (by decide))))
    (fun sg => nlOk_bind nlOk_mantissa (fun m =>
      nlOk_bind (nlOk_opt nlOk_exp) (fun ex => nlOk_pure _)))

theorem nlOk_float : NlOk float := nlOk_rf

/-! ## Behaviour on explicit lines -/

theorem tun_line {a : List Char} (ha : '\n' ∉ a) (s : List Char) :
    takeUntilNl (a ++ '\n' :: s) = .ok ('\n' :: s) a := by
  induction a with
  | nil => simp [takeUntilNl]
  | cons c a2 ih =>
    have hc : c ≠ '\n' := fun h => ha (by simp [h])
    have ha2 : '\n' ∉ a2 := fun h => ha (by simp [h])
    simp only [List.cons_append, takeUntilNl, if_neg hc, List.append_eq, ih ha2]

theorem take_line_line {a : List Char} (ha : '\n' ∉ a) (s : List Char) :
    take_line (a ++ '\n' :: s) = .ok s (trim a) := by
  simp [take_line, bindP, tun_line ha s, optP, newlineP, charP, pureP]

theorem comment_line {t : List Char} (ht : '\n' ∉ t) (s : List Char) :
    comment ('!' :: (t ++ '\n' :: s)) = .ok s (trim t) := by
  simp [comment, bindP, tagP, take_line_line ht s]

theorem comment_err_head {x : Char} (hx : x ≠ '!') (r0 : List Char) :
    comment (x :: r0) = .err := by
  simp only [comment, bindP, tagP, if_neg hx]

theorem many_comments_stop {s : List Char} (hs : s ≠ [])
    (hb : s.head? ≠ some '!') : many_comments s = .ok s [] := by
  cases s with
  | nil => exact absurd rfl hs
  | cons x r0 =>
    have hx : x ≠ '!' := by
      intro h
      exact hb (by simp [h])
    simp only [many_comments, many0F, comment_err_head hx r0]

theorem many0F_step {α : Type} {p : Parser α} {f : Nat} {i r : List Char}
    {v : α} (hf : i.length < f) (hp : p i = .ok r v) (hr : r.length < i.length) :
    many0F p f i = consRes v (many0F p (r.length + 1) r) := by
  cases f with
  | zero => omega
  | succ f =>
    have h1 : many0F p (f + 1) i =
        match many0F p f r with
        | .ok r2 vs => .ok r2 (v :: vs)
        | .err => .err
        | .inc => .inc := by
      simp only [many0F, hp, if_pos hr]
    rw [many0F_congr p f (r.length + 1) r (by omega) (by omega)] at h1
    rw [h1]
    cases many0F p (r.length + 1) r <;> rfl

theorem many_comments_step {i r : List Char} {v : List Char}
    (hp : comment i = .ok r v) (hr : r.length < i.length) :
    many_comments i = consRes v (many_comments r) := by
  simp only [many_comments]
  exact many0F_step (show i.length < i.length + 1 by omega) hp hr

theorem tun_ok_length {i rest l : List Char}
    (h : takeUntilNl i = .ok rest l) : rest.length ≤ i.length := by
  induction i generalizing rest l with
  | nil => cases h
  | cons c rr ih =>
    by_cases hc : c = '\n'
    · simp only [takeUntilNl, if_pos hc, PRes.ok.injEq] at h
      obtain ⟨h1, h2⟩ := h
      subst h1
      simp
    · simp only [takeUntilNl, if_neg hc] at h
      cases ht2 : takeUntilNl rr with
      | ok rest2 l2 =>
        simp only [ht2, PRes.ok.injEq] at h
        obtain ⟨h1, h2⟩ := h
        subst h1
        have := ih ht2
        simp only [List.length_cons]
        omega
      | err => simp only [ht2] at h; cases h
      | inc => simp only [ht2] at h; cases h

theorem optP_newline_length {rest r2 : List Char} {o : Option Char}
    (h : optP newlineP rest = .ok r2 o) : r2.length ≤ rest.length := by
  cases rest with
  | nil => simp only [optP, newlineP, charP] at h; cases h
  | cons c rr =>
    by_cases hc : c = '\n'
    · simp only [optP, newlineP, charP, if_pos hc, PRes.ok.injEq] at h
      obtain ⟨h1, h2⟩ := h
      subst h1
      simp
    · simp only [optP, newlineP, charP, if_neg hc, PRes.ok.injEq] at h
      obtain ⟨h1, h2⟩ := h
      subst h1
      exact Nat.le_refl _

theorem comment_consumes {i r : List Char} {v : List Char}
    (h : comment i = .ok r v) : r.length < i.length := by
  cases i with
  | nil => cases h
  | cons x r0 =>
    by_cases hx : x = '!'
    · subst hx
      have hct : tagP ['!'] ('!' :: r0) = .ok r0 () := by simp [tagP]
      simp only [comment, take_line, bindP, hct] at h
      cases ht : takeUntilNl r0 with
      | ok rest l =>
        simp only [ht] at h
        cases ho : optP newlineP rest with
        | ok r2 o =>
          simp only [ho, pureP, PRes.ok.injEq] at h
          obtain ⟨hq, hv⟩ := h
          subst hq
          have h1 := tun_ok_length ht
          have h2 := optP_newline_length ho
          simp only [List.length_cons]
          omega
        | err => simp only [ho] at h; cases h
        | inc => simp only [ho] at h; cases h
      | err => simp only [ht] at h; cases h
      | inc => simp only [ht] at h; cases h
    · simp only [comment_err_head hx r0] at h
      cases h

theorem many_comments_cons {t rest : List Char} (ht : '\n' ∉ t) :
    many_comments ('!' :: (t ++ '\n' :: rest)) =
      consRes (trim t) (many_comments rest) := by
  have hc : comment ('!' :: (t ++ '\n' :: rest)) = .ok rest (trim t) :=
    comment_line ht rest
  exact many_comments_step hc (comment_consumes hc)

theorem many_comments_skip {cs : List (List Char)} {s : List Char}
    (hcs : ∀ c ∈ cs, '\n' ∉ c) (hs : s ≠ []) (hb : s.head? ≠ some '!') :
    many_comments (rcs cs ++ s) = .ok s (cs.map trim) := by
  induction cs with
  | nil => simpa [rcs] using many_comments_stop hs hb
  | cons t cst ih =>
    have ht : '\n' ∉ t := hcs t (by simp)
    have he : rcs (t :: cst) ++ s = '!' :: (t ++ '\n' :: (rcs cst ++ s)) := by
      simp [rcs]
    rw [he, many_comments_cons ht]
    simp only [ih (fun c hc => hcs c (by simp [hc])), consRes, List.map_cons]

theorem space0_line (a s : List Char) :
    space0 (a ++ '\n' :: s) =
      .ok (a.dropWhile isSpaceTab ++ '\n' :: s) (a.takeWhile isSpaceTab) := by
  have hnl : isSpaceTab '\n' = false := by simp [isSpaceTab]
  simp only [space0, dropWhile_append_stop hnl a s, takeWhile_append_stop hnl a s]
  rw [if_neg (by simp)]

theorem u64P_ok_head {i r : List Char} {v : Nat} (h : u64P i = .ok r v) :
    ∃ c r0, i = c :: r0 ∧ c.isDigit = true := by
  cases i with
  | nil => cases h
  | cons c r0 =>
    by_cases hc : c.isDigit
    · exact ⟨c, r0, rfl, hc⟩
    · simp only [u64P, if_neg hc] at h
      cases h

theorem num_u64_ok_rest {i r : List Char} {v : Nat}
    (h : num_u64 i = .ok r v) : r = i := by
  cases hu : u64P i with
  | ok r1 n =>
    simp only [num_u64, hu, PRes.ok.injEq] at h
    exact h.1.symm
  | err => simp only [num_u64, hu] at h; cases h
  | inc => simp only [num_u64, hu] at h; cases h

theorem num_u64_ok_u64P {i r : List Char} {v : Nat}
    (h : num_u64 i = .ok r v) : ∃ r1, u64P i = .ok r1 v := by
  cases hu : u64P i with
  | ok r1 n =>
    simp only [num_u64, hu, PRes.ok.injEq] at h
    obtain ⟨h1, h2⟩ := h
    exact ⟨r1, by rw [h2]⟩
  | err => simp only [num_u64, hu] at h; cases h
  | inc => simp only [num_u64, hu] at h; cases h

theorem isDigit_ne_slash {c : Char} (hc : c.isDigit = true) : c ≠ '/' := by
  intro h
  subst h
  simp [Char.isDigit] at hc

theorem note_ratio_no_ok (i r : List Char) (v : Note) :
    note_ratio i ≠ .ok r v := by
  intro h
  cases hn : num_u64 i with
  | ok r1 n =>
    have hr1 : r1 = i := num_u64_ok_rest hn
    subst hr1
    obtain ⟨r2, hu⟩ := num_u64_ok_u64P hn
    obtain ⟨c, r0, hi, hc⟩ := u64P_ok_head hu
    rw [hi] at hn
    rw [hi] at h
    simp only [note_ratio, bindP, hn, tagP, if_neg (isDigit_ne_slash hc)] at h
    cases h
  | err => simp only [note_ratio, bindP, hn] at h; cases h
  | inc => simp only [note_ratio, bindP, hn] at h; cases h

theorem note_ratio_line_err {e : List Char} (he : '\n' ∉ e) (s : List Char) :
    note_ratio (e ++ '\n' :: s) = .err := by
  cases hn : num_u64 (e ++ '\n' :: s) with
  | ok r1 n =>
    have hr1 : r1 = e ++ '\n' :: s := num_u64_ok_rest hn
    subst hr1
    obtain ⟨r2, hu⟩ := num_u64_ok_u64P hn
    obtain ⟨c, r0, hi, hc⟩ := u64P_ok_head hu
    rw [hi] at hn ⊢
    simp only [note_ratio, bindP, hn, tagP, if_neg (isDigit_ne_slash hc)]
  | err => simp only [note_ratio, bindP, hn]
  | inc =>
    exfalso
    cases e with
    | nil => simp [num_u64, u64P, Char.isDigit] at hn
    | cons c e2 =>
      by_cases hc : c.isDigit
      · have hnl : Char.isDigit '\n' = false := by simp [Char.isDigit]
        have hd := dropWhile_append_stop hnl (c :: e2) s
        have ht := takeWhile_append_stop hnl (c :: e2) s
        simp only [List.cons_append] at hd ht
        by_cases hv : natOfDigits ((c :: e2).takeWhile Char.isDigit) < 2 ^ 64
        · simp only [num_u64, u64P, List.cons_append, if_pos hc, hd, ht] at hn
          rw [if_neg (by simp), if_pos hv] at hn
          cases hn
        · simp only [num_u64, u64P, List.cons_append, if_pos hc, hd, ht] at hn
          rw [if_neg (by simp), if_neg hv] at hn
          cases hn
      · simp only [num_u64, u64P, List.cons_append, if_neg hc] at hn
        cases hn

theorem note_ok_cents {i r : List Char} {v : Note} (h : note i = .ok r v) :
    ∃ c, v = .cents c := by
  simp only [note, bindP] at h
  cases ho : optP space0 i with
  | ok r1 o =>
    simp only [ho, altP] at h
    cases hnc : note_cents r1 with
    | ok r2 v2 =>
      simp only [hnc, PRes.ok.injEq] at h
      obtain ⟨h1, h2⟩ := h
      subst h2
      simp only [note_cents, bindP] at hnc
      cases hf : float r1 with
      | ok r3 f =>
        simp only [hf] at hnc
        cases hl : take_line r3 with
        | ok r4 l =>
          simp only [hl, pureP, PRes.ok.injEq] at hnc
          exact ⟨f, hnc.2.symm⟩
        | err => simp only [hl] at hnc; cases hnc
        | inc => simp only [hl] at hnc; cases hnc
      | err => simp only [hf] at hnc; cases hnc
      | inc => simp only [hf] at hnc; cases hnc
    | err =>
      simp only [hnc] at h
      exact absurd h (note_ratio_no_ok r1 r v)
    | inc => simp only [hnc] at h; cases h
  | err => simp only [ho] at h; cases h
  | inc => simp only [ho] at h; cases h

theorem mem_of_dropWhile {p : Char → Bool} {a : Char} {l : List Char}
    (h : a ∈ l.dropWhile p) : a ∈ l := by
  induction l with
  | nil => simp [List.dropWhile] at h
  | cons c r ih =>
    rw [List.dropWhile_cons] at h
    by_cases hc : p c
    · rw [if_pos hc] at h
      exact List.mem_cons_of_mem c (ih h)
    · rw [if_neg hc] at h
      exact h

theorem note_line {e : List Char} (he : '\n' ∉ e) :
    (∀ s, note (e ++ '\n' :: s) = .err) ∨
    (∃ v, ∀ s, note (e ++ '\n' :: s) = .ok s v) := by
  have he2 : '\n' ∉ e.dropWhile isSpaceTab := fun hm => he (mem_of_dropWhile hm)
  have hsp : ∀ s, optP space0 (e ++ '\n' :: s) =
      .ok (e.dropWhile isSpaceTab ++ '\n' :: s) (some (e.takeWhile isSpaceTab)) := by
    intro s
    simp only [optP, space0_line e s]
  rcases nlOk_float (e.dropWhile isSpaceTab) he2 with herr | ⟨a1, a2, v, hsplit, hok⟩
  · left
    intro s
    have hfe : float (e.dropWhile isSpaceTab ++ '\n' :: s) = .err := by
      have := extErr_float (e.dropWhile isSpaceTab ++ ['\n']) s herr
      simpa [List.append_assoc] using this
    simp only [note, bindP, hsp s, altP, note_cents, bindP, hfe,
      note_ratio_line_err he2 s]
  · right
    have ha2 : '\n' ∉ a2 := fun hm =>
      he2 (hsplit ▸ List.mem_append.mpr (Or.inr hm))
    refine ⟨.cents v, fun s => ?_⟩
    have hfo : float (e.dropWhile isSpaceTab ++ '\n' :: s)
        = .ok (a2 ++ '\n' :: s) v := by
      have := extOk_float (e.dropWhile isSpaceTab ++ ['\n']) s (a2 ++ ['\n']) v hok
      simpa [List.append_assoc] using this
    simp only [note, bindP, hsp s, altP, note_cents, bindP, hfo,
      take_line_line ha2 s, pureP]

/-! ## The count combinator and the document parser -/

theorem countP_ok_length {α : Type} {p : Parser α} :
    ∀ {n : Nat} {i r : List Char} {l : List α},
      countP p n i = .ok r l → l.length = n := by
  intro n
  induction n with
  | zero =>
    intro i r l h
    simp only [countP, pureP, PRes.ok.injEq] at h
    obtain ⟨h1, h2⟩ := h
    subst h2
    rfl
  | succ n ih =>
    intro i r l h
    simp only [countP, bindP] at h
    cases hp : p i with
    | ok r1 v =>
      simp only [hp] at h
      cases hc : countP p n r1 with
      | ok r2 l2 =>
        simp only [hc, pureP, PRes.ok.injEq] at h
        obtain ⟨h1, h2⟩ := h
        subst h2
        simp [ih hc]
      | err => simp only [hc] at h; cases h
      | inc => simp only [hc] at h; cases h
    | err => simp only [hp] at h; cases h
    | inc => simp only [hp] at h; cases h

theorem noteEntry_ok_cents {i r : List Char} {pr : List (List Char) × Note}
    (h : noteEntry i = .ok r pr) : ∃ c, pr.2 = .cents c := by
  simp only [noteEntry, bindP] at h
  cases hm : many_comments i with
  | ok r1 cs =>
    simp only [hm] at h
    cases hn : note r1 with
    | ok r2 nt =>
      simp only [hn, pureP, PRes.ok.injEq] at h
      obtain ⟨h1, h2⟩ := h
      subst h2
      exact note_ok_cents hn
    | err => simp only [hn] at h; cases h
    | inc => simp only [hn] at h; cases h
  | err => simp only [hm] at h; cases h
  | inc => simp only [hm] at h; cases h

theorem countP_all_cents :
    ∀ {n : Nat} {i r : List Char} {l : List (List (List Char) × Note)},
      countP noteEntry n i = .ok r l → ∀ pr ∈ l, ∃ c, pr.2 = .cents c := by
  intro n
  induction n with
  | zero =>
    intro i r l h pr hpr
    simp only [countP, pureP, PRes.ok.injEq] at h
    obtain ⟨h1, h2⟩ := h
    subst h2
    cases hpr
  | succ n ih =>
    intro i r l h pr hpr
    simp only [countP, bindP] at h
    cases hp : noteEntry i with
    | ok r1 v =>
      simp only [hp] at h
      cases hc : countP noteEntry n r1 with
      | ok r2 l2 =>
        simp only [hc, pureP, PRes.ok.injEq] at h
        obtain ⟨h1, h2⟩ := h
        subst h2
        rcases List.mem_cons.mp hpr with hv | hmem
        · subst hv
          exact noteEntry_ok_cents hp
        · exact ih hc pr hmem
      | err => simp only [hc] at h; cases h
      | inc => simp only [hc] at h; cases h
    | err => simp only [hp] at h; cases h
    | inc => simp only [hp] at h; cases h

theorem parse_scala_steps {s s1 s2 s3 s4 : List Char}
    {l1 l2 : List (List Char)} {d sp : List Char}
    (h1 : many_comments s = .ok s1 l1) (h2 : take_line s1 = .ok s2 d)
    (h3 : many_comments s2 = .ok s3 l2) (h4 : space0 s3 = .ok s4 sp) :
    parse_scala s =
      bindP num_u64 (fun n =>
        bindP (countP noteEntry n) (fun entries =>
          pureP ⟨d, entries.map Prod.snd⟩)) s4 := by
  simp only [parse_scala, bindP, h1, h2, h3, h4]

theorem parse_scala_ok_elim {s r : List Char} {sc : Scale}
    (h : parse_scala s = .ok r sc) :
    ∃ s1 l1 s2 d s3 l2 s4 sp s5 n pairs,
      many_comments s = .ok s1 l1 ∧ take_line s1 = .ok s2 d ∧
      many_comments s2 = .ok s3 l2 ∧ space0 s3 = .ok s4 sp ∧
      num_u64 s4 = .ok s5 n ∧ countP noteEntry n s5 = .ok r pairs ∧
      sc = ⟨d, pairs.map Prod.snd⟩ := by
  simp only [parse_scala, bindP] at h
  cases hm1 : many_comments s with
  | ok s1 l1 =>
    simp only [hm1] at h
    cases ht : take_line s1 with
    | ok s2 d =>
      simp only [ht] at h
      cases hm2 : many_comments s2 with
      | ok s3 l2 =>
        simp only [hm2] at h
        cases hsp : space0 s3 with
        | ok s4 sp =>
          simp only [hsp] at h
          cases hn : num_u64 s4 with
          | ok s5 n =>
            simp only [hn] at h
            cases hc : countP noteEntry n s5 with
            | ok r2 pairs =>
              simp only [hc, pureP, PRes.ok.injEq] at h
              obtain ⟨hr, hsc⟩ := h
              subst hr
              exact ⟨s1, l1, s2, d, s3, l2, s4, sp, s5, n, pairs,
                rfl, ht, hm2, hsp, hn, hc, hsc.symm⟩
            | err => simp only [hc] at h; cases h
            | inc => simp only [hc] at h; cases h
          | err => simp only [hn] at h; cases h
          | inc => simp only [hn] at h; cases h
        | err => simp only [hsp] at h; cases h
        | inc => simp only [hsp] at h; cases h
      | err => simp only [hm2] at h; cases h
      | inc => simp only [hm2] at h; cases h
    | err => simp only [ht] at h; cases h
    | inc => simp only [ht] at h; cases h
  | err => simp only [hm1] at h; cases h
  | inc => simp only [hm1] at h; cases h

theorem lineOK_split {e : List Char} (hb : lineOK e = true) :
    '\n' ∉ e ∧ e.head? ≠ some '!' := by
  simp only [lineOK, Bool.and_eq_true] at hb
  refine ⟨noNl_iff.mp hb.1, ?_⟩
  cases e with
  | nil => simp
  | cons c r =>
    by_cases hc : c = '!'
    · subst hc
      simp at hb
    · simp [hc]

theorem head_line_ne_bang {e : List Char} (hb : e.head? ≠ some '!')
    (x : List Char) : (e ++ '\n' :: x).head? ≠ some '!' := by
  cases e with
  | nil => simp
  | cons c r =>
    simp only [List.head?_cons] at hb
    simp [hb]

theorem num_u64_line_not_inc (e s : List Char) :
    num_u64 (e ++ '\n' :: s) ≠ .inc := by
  intro hn
  cases e with
  | nil => simp [num_u64, u64P, Char.isDigit] at hn
  | cons c e2 =>
    by_cases hc : c.isDigit
    · have hnl : Char.isDigit '\n' = false := by simp [Char.isDigit]
      have hd := dropWhile_append_stop hnl (c :: e2) s
      have ht := takeWhile_append_stop hnl (c :: e2) s
      simp only [List.cons_append] at hd ht
      by_cases hv : natOfDigits ((c :: e2).takeWhile Char.isDigit) < 2 ^ 64
      · simp only [num_u64, u64P, List.cons_append, if_pos hc, hd, ht] at hn
        rw [if_neg (by simp), if_pos hv] at hn
        cases hn
      · simp only [num_u64, u64P, List.cons_append, if_pos hc, hd, ht] at hn
        rw [if_neg (by simp), if_neg hv] at hn
        cases hn
    · simp only [num_u64, u64P, List.cons_append, if_neg hc] at hn
      cases hn

/-! ## Comment transparency of the entry loop -/

theorem countP_entries_agree :
    ∀ (n : Nat) (es : List (List (List Char) × List Char)),
      (∀ p ∈ es, (∀ c ∈ p.1, '\n' ∉ c) ∧ '\n' ∉ p.2 ∧ p.2.head? ≠ some '!') →
      agreePairs (countP noteEntry n (renderEntries es))
        (countP noteEntry n (renderEntries (es.map (fun p => ([], p.2))))) := by
  intro n
  induction n with
  | zero =>
    intro es hes
    simp only [countP, pureP]
    simp [agreePairs]
  | succ n ih =>
    intro es hes
    cases es with
    | nil =>
      have hinc : noteEntry ([] : List Char) = .inc := by decide
      simp only [renderEntries, List.map_nil, countP, bindP, hinc]
      simp [agreePairs]
    | cons pe es2 =>
      obtain ⟨cs, e⟩ := pe
      obtain ⟨hcs, henl, heb⟩ := hes (cs, e) (by simp)
      have hr1 : renderEntries ((cs, e) :: es2)
          = rcs cs ++ (e ++ '\n' :: renderEntries es2) := rfl
      have hr2 : renderEntries (((cs, e) :: es2).map (fun p => ([], p.2)))
          = e ++ '\n' :: renderEntries (es2.map (fun p => ([], p.2))) := by
        simp [renderEntries, rcs]
      have hm1 : many_comments (rcs cs ++ (e ++ '\n' :: renderEntries es2))
          = .ok (e ++ '\n' :: renderEntries es2) (cs.map trim) :=
        many_comments_skip hcs (by simp) (head_line_ne_bang heb _)
      have hm2 : many_comments
            (e ++ '\n' :: renderEntries (es2.map (fun p => ([], p.2))))
          = .ok (e ++ '\n' :: renderEntries (es2.map (fun p => ([], p.2)))) [] :=
        many_comments_stop (by simp) (head_line_ne_bang heb _)
      rcases note_line henl with hne | ⟨v, hok⟩
      · have hne1 : noteEntry (rcs cs ++ (e ++ '\n' :: renderEntries es2))
            = .err := by
          simp only [noteEntry, bindP, hm1, hne]
        have hne2 : noteEntry
              (e ++ '\n' :: renderEntries (es2.map (fun p => ([], p.2))))
            = .err := by
          simp only [noteEntry, bindP, hm2, hne]
        rw [hr1, hr2]
        simp only [countP, bindP, hne1, hne2]
        simp [agreePairs]
      · have hok1 : noteEntry (rcs cs ++ (e ++ '\n' :: renderEntries es2))
            = .ok (renderEntries es2) (cs.map trim, v) := by
          simp only [noteEntry, bindP, hm1, hok, pureP]
        have hok2 : noteEntry
              (e ++ '\n' :: renderEntries (es2.map (fun p => ([], p.2))))
            = .ok (renderEntries (es2.map (fun p => ([], p.2)))) ([], v) := by
          simp only [noteEntry, bindP, hm2, hok, pureP]
        rw [hr1, hr2]
        simp only [countP, bindP, hok1, hok2]
        have hag := ih es2 (fun p hp => hes p (by simp [hp]))
        cases hc1 : countP noteEntry n (renderEntries es2) with
        | ok r1 l1 =>
          cases hc2 : countP noteEntry n
              (renderEntries (es2.map (fun p => ([], p.2)))) with
          | ok r2 l2 =>
            rw [hc1, hc2] at hag
            simp only [agreePairs] at hag
            simp only [pureP]
            simp only [agreePairs, List.map_cons, hag]
          | err => rw [hc1, hc2] at hag; simp [agreePairs] at hag
          | inc => rw [hc1, hc2] at hag; simp [agreePairs] at hag
        | err =>
          cases hc2 : countP noteEntry n
              (renderEntries (es2.map (fun p => ([], p.2)))) with
          | ok r2 l2 => rw [hc1, hc2] at hag; simp [agreePairs] at hag
          | err => simp [agreePairs]
          | inc => rw [hc1, hc2] at hag; simp [agreePairs] at hag
        | inc =>
          cases hc2 : countP noteEntry n
              (renderEntries (es2.map (fun p => ([], p.2)))) with
          | ok r2 l2 => rw [hc1, hc2] at hag; simp [agreePairs] at hag
          | err => rw [hc1, hc2] at hag; simp [agreePairs] at hag
          | inc => simp [agreePairs]

theorem commentsOK_mem {cs : List (List Char)} (h : commentsOK cs = true) :
    ∀ c ∈ cs, '\n' ∉ c := by
  intro c hc
  exact noNl_iff.mp (List.all_eq_true.mp h c hc)

theorem parse_render_agree (doc : ScalaDoc) (h : docOK doc = true) :
    agreeRes (parse_scala (render doc)) (parse_scala (render (stripDoc doc))) := by
  simp only [docOK, Bool.and_eq_true] at h
  obtain ⟨⟨⟨⟨h1, h2⟩, h3⟩, h4⟩, h5⟩ := h
  obtain ⟨hdnl, hdb⟩ := lineOK_split h2
  obtain ⟨hcnl, hcb⟩ := lineOK_split h4
  have hlead := commentsOK_mem h1
  have hmid := commentsOK_mem h3
  have hentries : ∀ p ∈ doc.entries,
      (∀ c ∈ p.1, '\n' ∉ c) ∧ '\n' ∉ p.2 ∧ p.2.head? ≠ some '!' := by
    intro p hp
    have := List.all_eq_true.mp h5 p hp
    simp only [Bool.and_eq_true] at this
    obtain ⟨hc1, hc2⟩ := this
    obtain ⟨hnl2, hb2⟩ := lineOK_split hc2
    exact ⟨commentsOK_mem hc1, hnl2, hb2⟩
  set B := renderEntries doc.entries with hB
  set B2 := renderEntries (doc.entries.map (fun p => ([], p.2))) with hB2
  set cl := doc.countLine.dropWhile isSpaceTab with hcl
  -- header of the commented document
  have hm1 : many_comments (render doc) =
      .ok (doc.desc ++ '\n' ::
        (rcs doc.mid ++ (doc.countLine ++ '\n' :: B))) (doc.lead.map trim) :=
    many_comments_skip hlead (by simp) (head_line_ne_bang hdb _)
  have ht1 : take_line (doc.desc ++ '\n' ::
        (rcs doc.mid ++ (doc.countLine ++ '\n' :: B))) =
      .ok (rcs doc.mid ++ (doc.countLine ++ '\n' :: B)) (trim doc.desc) :=
    take_line_line hdnl _
  have hm1b : many_comments (rcs doc.mid ++ (doc.countLine ++ '\n' :: B)) =
      .ok (doc.countLine ++ '\n' :: B) (doc.mid.map trim) :=
    many_comments_skip hmid (by simp) (head_line_ne_bang hcb _)
  have hsp1 : space0 (doc.countLine ++ '\n' :: B) =
      .ok (cl ++ '\n' :: B) (doc.countLine.takeWhile isSpaceTab) :=
    space0_line doc.countLine B
  have hstep1 := parse_scala_steps hm1 ht1 hm1b hsp1
  -- header of the stripped document
  have hm2 : many_comments (render (stripDoc doc)) =
      .ok (doc.desc ++ '\n' :: (doc.countLine ++ '\n' :: B2)) [] :=
    many_comments_stop (by simp [render, stripDoc, rcs]) (head_line_ne_bang hdb _)
  have ht2 : take_line (doc.desc ++ '\n' :: (doc.countLine ++ '\n' :: B2)) =
      .ok (doc.countLine ++ '\n' :: B2) (trim doc.desc) :=
    take_line_line hdnl _
  have hm2b : many_comments (doc.countLine ++ '\n' :: B2) =
      .ok (doc.countLine ++ '\n' :: B2) [] :=
    many_comments_stop (by simp) (head_line_ne_bang hcb _)
  have hsp2 : space0 (doc.countLine ++ '\n' :: B2) =
      .ok (cl ++ '\n' :: B2) (doc.countLine.takeWhile isSpaceTab) :=
    space0_line doc.countLine B2
  have hstep2 := parse_scala_steps hm2 ht2 hm2b hsp2
  rw [hstep1, hstep2]
  have hclnl : '\n' ∉ cl := fun hm => hcnl (mem_of_dropWhile hm)
  cases hnum : num_u64 (cl ++ ['\n']) with
  | inc => exact absurd hnum (num_u64_line_not_inc cl [])
  | err =>
    have e1 := extErr_num (cl ++ ['\n']) B hnum
    have e2 := extErr_num (cl ++ ['\n']) B2 hnum
    simp only [List.append_assoc, List.singleton_append] at e1 e2
    simp only [bindP, e1, e2]
    simp [agreeRes]
  | ok rr n =>
    have hrr : rr = cl ++ ['\n'] := num_u64_ok_rest hnum
    subst hrr
    have o1 := extOk_num (cl ++ ['\n']) B _ n hnum
    have o2 := extOk_num (cl ++ ['\n']) B2 _ n hnum
    simp only [List.append_assoc, List.singleton_append] at o1 o2
    simp only [bindP, o1, o2]
    have hclb : cl.head? ≠ some '!' := by
      obtain ⟨r1, hu⟩ := num_u64_ok_u64P hnum
      obtain ⟨c, r0, hi, hc⟩ := u64P_ok_head hu
      cases hclc : cl with
      | nil => simp
      | cons c0 cs0 =>
        rw [hclc] at hi
        simp only [List.cons_append, List.cons.injEq] at hi
        obtain ⟨hi1, hi2⟩ := hi
        subst hi1
        have : c0 ≠ '!' := by
          intro hq
          subst hq
          simp [Char.isDigit] at hc
        simp [this]
    have hb1 : cl ++ '\n' :: B = renderEntries (([], cl) :: doc.entries) := by
      simp [renderEntries, rcs]
    have hb2 : cl ++ '\n' :: B2 =
        renderEntries ((([], cl) :: doc.entries).map (fun p => ([], p.2))) := by
      simp [renderEntries, rcs, hB2]
    rw [hb1, hb2]
    have hag := countP_entries_agree n (([], cl) :: doc.entries)
      (by
        intro p hp
        rcases List.mem_cons.mp hp with hp1 | hp2
        · subst hp1
          exact ⟨by simp, hclnl, hclb⟩
        · exact hentries p hp2)
    cases hc1 : countP noteEntry n (renderEntries (([], cl) :: doc.entries)) with
    | ok r1 l1 =>
      cases hc2 : countP noteEntry n
          (renderEntries ((([], cl) :: doc.entries).map (fun p => ([], p.2)))) with
      | ok r2 l2 =>
        rw [hc1, hc2] at hag
        simp only [agreePairs] at hag
        simp only [pureP]
        simp [agreeRes, hag]
      | err => rw [hc1, hc2] at hag; simp [agreePairs] at hag
      | inc => rw [hc1, hc2] at hag; simp [agreePairs] at hag
    | err =>
      cases hc2 : countP noteEntry n
          (renderEntries ((([], cl) :: doc.entries).map (fun p => ([], p.2)))) with
      | ok r2 l2 => rw [hc1, hc2] at hag; simp [agreePairs] at hag
      | err => simp [agreeRes]
      | inc => rw [hc1, hc2] at hag; simp [agreePairs] at hag
    | inc =>
      cases hc2 : countP noteEntry n
          (renderEntries ((([], cl) :: doc.entries).map (fun p => ([], p.2)))) with
      | ok r2 l2 => rw [hc1, hc2] at hag; simp [agreePairs] at hag
      | err => rw [hc1, hc2] at hag; simp [agreePairs] at hag
      | inc => simp [agreeRes]

/-! ## The claims -/

/-- C1: the claim states that an `<int>/<int>` line parses as `Ratio` while a
bare signed decimal parses as `Cents`.  The cents half holds, but the ratio
half fails on the code: nom's `float` accepts the leading `3` of `3/2` and
`note_cents` discards the rest of the line, so `note` returns `Cents(3.0)`
(here `Cents` of the literal `3`), never reaching `note_ratio` — which in any
case cannot succeed because `num_u64` does not advance the input.  This
theorem records the actual behaviour at the failing input `3/2` and the
correct cents behaviour at `100.0` and `150`. -/
theorem c1_ratio_line_parses_as_cents :
    note (s2c "3/2\n") = .ok [] (.cents (s2c "3")) ∧
    note (s2c "100.0\n") = .ok [] (.cents (s2c "100.0")) ∧
    note (s2c "150\n") = .ok [] (.cents (s2c "150")) := by
  decide

/-- C2: the claim expects the example file to yield four `Ratio` notes.  On
the code the parse succeeds but, because `num_u64` never consumes the count
literal, the count line `4` itself is consumed as the first note, each ratio
line is consumed as a cents value of its numerator, and the last interval
line ` 2/1` is left unconsumed: the result is `Cents 4, Cents 81, Cents 4,
Cents 3` (the description is correct). -/
theorem c2_example_input_actual_result :
    parse_scala (s2c "! Example\n5-limit just\n4\n  81/64\n 4/3\n 3/2\n 2/1\n")
      = .ok (s2c " 2/1\n")
          ⟨s2c "5-limit just",
           [.cents (s2c "4"), .cents (s2c "81"),
            .cents (s2c "4"), .cents (s2c "3")]⟩ := by
  decide

/-- C3: the claim states that a declared count of 3 with only 2 interval
lines fails.  On the code it succeeds: the count line is consumed as the
first note, so 3 repetitions are satisfied by the count line plus the two
interval lines, and a `Scale` with 3 notes is returned to the caller. -/
theorem c3_short_input_still_succeeds :
    parse_scala (s2c "desc\n3\n100.0\n200.0\n") =
      .ok [] ⟨s2c "desc",
        [.cents (s2c "3"), .cents (s2c "100.0"), .cents (s2c "200.0")]⟩ ∧
    from_str (s2c "desc\n3\n100.0\n200.0\n") =
      some ⟨s2c "desc",
        [.cents (s2c "3"), .cents (s2c "100.0"), .cents (s2c "200.0")]⟩ := by
  constructor
  · decide
  · decide

/-- C4 counterexample: the claim states that an interval line `-3/2` makes
the parse fail.  It does not: the input below parses successfully, the
line `-3/2` being absorbed by the cents alternative as `Cents(-3)` with
`/2` discarded. -/
theorem c4_counterexample :
    parse_scala (s2c "desc\n2\n-3/2\n") =
      .ok [] ⟨s2c "desc", [.cents (s2c "2"), .cents (s2c "-3")]⟩ := by
  decide

/-- C4 amended: a negative integer is rejected where `num_u64` reads it, so
a negative note count makes the parse fail; but an interval line carrying a
negative ratio such as `-3/2` does NOT fail — the cents alternative accepts
the signed float `-3` and the rest of the line is discarded, silently
coercing the line to `Cents(-3)`. -/
theorem c4_amended :
    (∀ t : List Char, num_u64 ('-' :: t) = .err) ∧
    note (s2c "-3/2\n") = .ok [] (.cents (s2c "-3")) ∧
    parse_scala (s2c "desc\n-3\n1\n") = .err := by
  refine ⟨fun t => ?_, by decide, by decide⟩
  have hd : ('-').isDigit = false := by decide
  simp [num_u64, u64P, hd]

/-- C5: for every input on which `parse_scala` succeeds, the length of the
returned `notes` equals the note-count literal read from the header (the
value produced by `num_u64` after the comments, description, comments and
leading spaces). -/
theorem c5_notes_length_matches_count :
    ∀ s r sc, parse_scala s = .ok r sc →
      ∃ s1 l1 s2 d s3 l2 s4 sp s5 n,
        many_comments s = .ok s1 l1 ∧ take_line s1 = .ok s2 d ∧
        many_comments s2 = .ok s3 l2 ∧ space0 s3 = .ok s4 sp ∧
        num_u64 s4 = .ok s5 n ∧ sc.notes.length = n := by
  intro s r sc h
  obtain ⟨s1, l1, s2, d, s3, l2, s4, sp, s5, n, pairs,
    hm1, ht, hm2, hsp, hn, hc, hsc⟩ := parse_scala_ok_elim h
  refine ⟨s1, l1, s2, d, s3, l2, s4, sp, s5, n, hm1, ht, hm2, hsp, hn, ?_⟩
  subst hsc
  simp [countP_ok_length hc]

/-- C5 witness: a concrete successful parse with note count 2 and two notes. -/
theorem c5_witness :
    parse_scala (s2c "d\n2\n9\n8\n") = .ok (s2c "8\n")
      ⟨s2c "d", [.cents (s2c "2"), .cents (s2c "9")]⟩ ∧
    (∃ s1 l1 s2 d s3 l2 s4 sp s5 n,
      many_comments (s2c "d\n2\n9\n8\n") = .ok s1 l1 ∧ take_line s1 = .ok s2 d ∧
      many_comments s2 = .ok s3 l2 ∧ space0 s3 = .ok s4 sp ∧
      num_u64 s4 = .ok s5 n ∧
      (Scale.mk (s2c "d") [.cents (s2c "2"), .cents (s2c "9")]).notes.length = n) :=
  ⟨by decide,
   c5_notes_length_matches_count (s2c "d\n2\n9\n8\n") (s2c "8\n")
     ⟨s2c "d", [.cents (s2c "2"), .cents (s2c "9")]⟩ (by decide)⟩

/-- C6: inserting or removing comment lines at the three legal interleave
points (before the description line, before the count line, before any
interval line) never changes the parse outcome kind or the resulting
`Scale`'s description, note count or note values: parsing a rendered
document agrees with parsing the same document with all comments removed. -/
theorem c6_comment_transparency (doc : ScalaDoc) (h : docOK doc = true) :
    agreeRes (parse_scala (render doc)) (parse_scala (render (stripDoc doc))) :=
  parse_render_agree doc h

/-- C6 witness: a concrete document with comments at all three interleave
points agrees with its comment-free version. -/
theorem c6_witness :
    docOK ⟨[s2c " a comment"], s2c "my scale", [s2c "x"], s2c "2",
      [([s2c "y"], s2c "9"), ([], s2c "70.5")]⟩ = true ∧
    agreeRes
      (parse_scala (render ⟨[s2c " a comment"], s2c "my scale", [s2c "x"],
        s2c "2", [([s2c "y"], s2c "9"), ([], s2c "70.5")]⟩))
      (parse_scala (render (stripDoc ⟨[s2c " a comment"], s2c "my scale",
        [s2c "x"], s2c "2", [([s2c "y"], s2c "9"), ([], s2c "70.5")]⟩))) :=
  ⟨by decide, c6_comment_transparency _ (by decide)⟩

/-- C7: appending arbitrary extra bytes to an input that parses successfully
does not cause failure and does not change the returned `Scale`: the extra
bytes end up, untouched, in the unconsumed remainder. -/
theorem c7_trailing_bytes_preserved (s t r : List Char) (sc : Scale)
    (h : parse_scala s = .ok r sc) :
    parse_scala (s ++ t) = .ok (r ++ t) sc :=
  extOk_parse_scala s t r sc h

/-- C7 witness: appending garbage after a successful parse leaves the Scale
unchanged and the garbage unconsumed. -/
theorem c7_witness :
    parse_scala (s2c "d\n1\n") = .ok [] ⟨s2c "d", [.cents (s2c "1")]⟩ ∧
    parse_scala (s2c "d\n1\n" ++ s2c "!trailing\ngarbage") =
      .ok ([] ++ s2c "!trailing\ngarbage") ⟨s2c "d", [.cents (s2c "1")]⟩ :=
  ⟨by decide,
   c7_trailing_bytes_preserved (s2c "d\n1\n") (s2c "!trailing\ngarbage") []
     ⟨s2c "d", [.cents (s2c "1")]⟩ (by decide)⟩

/-- C8: an input whose header parses (comments, description line, comments,
spaces) and whose note-count literal is 0 parses successfully into a `Scale`
with an empty notes list. -/
theorem c8_zero_count_empty_notes (s s1 s2 s3 s4 s5 : List Char)
    (l1 l2 : List (List Char)) (d sp : List Char)
    (h1 : many_comments s = .ok s1 l1) (h2 : take_line s1 = .ok s2 d)
    (h3 : many_comments s2 = .ok s3 l2) (h4 : space0 s3 = .ok s4 sp)
    (h5 : num_u64 s4 = .ok s5 0) :
    parse_scala s = .ok s5 ⟨d, []⟩ := by
  rw [parse_scala_steps h1 h2 h3 h4]
  simp only [bindP, h5, countP, pureP, List.map_nil]

/-- C8 witness: the input `d\n0\n` parses to a Scale with description `d`
and no notes. -/
theorem c8_witness :
    num_u64 (s2c "0\n") = .ok (s2c "0\n") 0 ∧
    parse_scala (s2c "d\n0\n") = .ok (s2c "0\n") ⟨s2c "d", []⟩ :=
  ⟨by decide,
   c8_zero_count_empty_notes (s2c "d\n0\n") (s2c "d\n0\n") (s2c "0\n")
     (s2c "0\n") (s2c "0\n") (s2c "0\n") [] [] (s2c "d") []
     (by decide) (by decide) (by decide) (by decide) (by decide)⟩

/-- C9: whenever `num_u64` succeeds, the remainder it returns is the whole
original input — it recognizes a leading unsigned 64-bit integer but never
advances the input position. -/
theorem c9_num_u64_never_consumes (i r : List Char) (v : Nat)
    (h : num_u64 i = .ok r v) : r = i :=
  num_u64_ok_rest h

/-- C9 witness: `num_u64` on `42x` returns the value 42 with the input
unconsumed. -/
theorem c9_witness :
    num_u64 (s2c "42x") = .ok (s2c "42x") 42 ∧ s2c "42x" = s2c "42x" :=
  ⟨by decide, c9_num_u64_never_consumes (s2c "42x") (s2c "42x") 42 (by decide)⟩

/-- C10: `note_ratio` never succeeds on any input (its `/` tag is matched at
the very position where `num_u64` just required a digit), so every note in
any Scale returned by the parser is the `Cents` variant. -/
theorem c10_all_notes_cents :
    (∀ i r v, note_ratio i ≠ .ok r v) ∧
    (∀ s r sc, parse_scala s = .ok r sc →
      ∀ nt ∈ sc.notes, ∃ c, nt = .cents c) := by
  constructor
  · exact note_ratio_no_ok
  · intro s r sc h nt hnt
    obtain ⟨s1, l1, s2, d, s3, l2, s4, sp, s5, n, pairs,
      hm1, ht, hm2, hsp, hn, hc, hsc⟩ := parse_scala_ok_elim h
    subst hsc
    simp only at hnt
    obtain ⟨pr, hpr, hsnd⟩ := List.mem_map.mp hnt
    obtain ⟨c, hcents⟩ := countP_all_cents hc pr hpr
    exact ⟨c, by rw [← hsnd, hcents]⟩

/-- C10 witness: a concrete successful parse all of whose notes are Cents. -/
theorem c10_witness :
    parse_scala (s2c "d\n1\n") = .ok [] ⟨s2c "d", [.cents (s2c "1")]⟩ ∧
    ∀ nt ∈ (Scale.mk (s2c "d") [.cents (s2c "1")]).notes, ∃ c, nt = .cents c :=
  ⟨by decide,
   fun nt hnt => c10_all_notes_cents.2 (s2c "d\n1\n") []
     ⟨s2c "d", [.cents (s2c "1")]⟩ (by decide) nt hnt⟩
